import Mathlib

/-!
Verification of the hyparquet parquet-reader core against its
natural-language specification.

The JavaScript sources are shallowly embedded:

* JS `number` values flowing through bitwise operators are modelled as `Int`
  with the ECMAScript ToUint32/ToInt32 coercions made explicit
  (`toUint32`, `int32OfUint32`, `jsAnd`, `jsOr`, `jsShl`, `jsShr`, `jsShrU`);
  JS `BigInt` values are modelled as `Int` (arbitrary precision, two's
  complement bitwise via `Int.lor`).
* A `DataView` plus mutable byte offset (the `DataReader` of the sources) is a
  `Reader` structure over a `List Nat` of bytes; every read is bounds-checked
  and an out-of-range read returns `Except.error "RangeError"`, matching the
  `RangeError` a `DataView` access throws.
* `while` loops are structural recursions on an explicit fuel argument chosen
  at the call site to dominate the loop's iteration count, so that every
  definition is executable and closed evaluations reduce by `rfl`/`decide`.
  Fuel exhaustion returns an error and models non-termination.
-/

namespace Hyparquet

/-! ### ECMAScript integer coercions

JS bitwise operators coerce their operands with ToInt32/ToUint32
(ECMA-262 7.1.6/7.1.7): the operand is reduced mod 2^32 and, for ToInt32,
reinterpreted as a signed 32-bit two's-complement value.  Shift counts are
taken mod 32. -/

/-- ToUint32: reduce an integer mod 2^32 (`Int.emod` is nonnegative for a
positive modulus). -/
def toUint32 (n : Int) : Nat := (n % (2 ^ 32 : Int)).toNat

/-- Reinterpret an unsigned 32-bit value as a signed two's-complement int32. -/
def int32OfUint32 (u : Nat) : Int := if u < 2 ^ 31 then (u : Int) else (u : Int) - 2 ^ 32

/-- ToInt32 of an arbitrary integer. -/
def toInt32 (n : Int) : Int := int32OfUint32 (toUint32 n)

/-- JS `a & b` on numbers: both operands ToInt32, bitwise and on 32 bits,
result reinterpreted as int32. -/
def jsAnd (a b : Int) : Int := int32OfUint32 (toUint32 a &&& toUint32 b)

/-- JS `a | b` on numbers. -/
def jsOr (a b : Int) : Int := int32OfUint32 (toUint32 a ||| toUint32 b)

/-- JS `a << k` on numbers: shift count mod 32, result int32. -/
def jsShl (a k : Int) : Int := int32OfUint32 (toUint32 a <<< (toUint32 k % 32) % 2 ^ 32)

/-- JS `a >> k`: arithmetic (sign-propagating) right shift of the int32 value,
i.e. floor division by a power of two. -/
def jsShr (a k : Int) : Int := Int.fdiv (toInt32 a) ((2 : Int) ^ (toUint32 k % 32))

/-- JS `a >>> k`: logical right shift of the uint32 value; always nonnegative. -/
def jsShrU (a k : Int) : Int := ((toUint32 a >>> (toUint32 k % 32) : Nat) : Int)

/-- JS ToUint8 (the coercion a `Uint8Array` store performs). -/
def toUint8 (n : Int) : Nat := (n % (256 : Int)).toNat

/-! ### DataReader: a DataView plus a byte offset -/

/-- The sources' `DataReader`: a `DataView` over a byte buffer together with a
mutable byte offset.  `data` holds the view's bytes (each in `[0,256)`). -/
structure Reader where
  data : List Nat
  offset : Nat
  deriving Repr, DecidableEq

/-- `DataView.getUint8`: bounds-checked single-byte read.  Out-of-range reads
throw a `RangeError` in JS. -/
def getUint8 (d : List Nat) (i : Nat) : Except String Nat :=
  match d.get? i with
  | some b => .ok (b % 256)
  | none => .error "RangeError"

/-- Little-endian unsigned read of `w` consecutive bytes starting at `i`; this
is the semantics shared by `DataView.getUint16/getUint32` (littleEndian) and
friends. -/
def readLE (d : List Nat) (i : Nat) : Nat → Except String Nat
  | 0 => .ok 0
  | w + 1 => do
    let b ← getUint8 d i
    let rest ← readLE d (i + 1) w
    .ok (b + 256 * rest)

/-- `DataView.getUint16(i, true)`. -/
def getUint16LE (d : List Nat) (i : Nat) : Except String Nat := readLE d i 2

/-- `DataView.getUint32(i, true)`. -/
def getUint32LE (d : List Nat) (i : Nat) : Except String Nat := readLE d i 4

/-- `DataView.getInt32(i, true)`: the uint32 read reinterpreted as signed. -/
def getInt32LE (d : List Nat) (i : Nat) : Except String Int := do
  let u ← getUint32LE d i
  .ok (int32OfUint32 u)

/-- `DataView.getBigInt64(i, true)`: 8 bytes little-endian, signed
two's-complement, as a JS BigInt (arbitrary-precision `Int`). -/
def getBigInt64LE (d : List Nat) (i : Nat) : Except String Int := do
  let u ← readLE d i 8
  .ok (if u < 2 ^ 63 then (u : Int) else (u : Int) - 2 ^ 64)

/-! ### Thrift Compact Protocol varints (src/thrift.ts)

`readVarInt` accumulates 7-bit groups with JS 32-bit bitwise arithmetic
(`result |= (byte & 0x7f) << shift`); `readVarBigInt` does the same with
BigInt arithmetic.  The loops read one byte per iteration and terminate on a
byte with the high bit clear, or fail with a `RangeError` once the buffer is
exhausted; the fuel `d.length + 1 - index` therefore dominates the iteration
count. -/

/-- Loop body of `readVarInt`: `result` and `shift` accumulate across
iterations. -/
def readVarIntAux (d : List Nat) : Nat → Nat → Int → Int → Except String (Int × Nat)
  | 0, _, _, _ => .error "readVarInt fuel exhausted"
  | fuel + 1, index, result, shift => do
    let byte ← getUint8 d index
    let result := jsOr result (jsShl (jsAnd (byte : Int) 127) shift)
    if jsAnd (byte : Int) 128 = 0 then
      .ok (result, index + 1)
    else
      readVarIntAux d fuel (index + 1) result (shift + 7)

/-- `readVarInt(view, index)` from src/thrift.ts: returns the decoded value
and the index just past the varint. -/
def readVarInt (d : List Nat) (index : Nat) : Except String (Int × Nat) :=
  readVarIntAux d (d.length + 1 - index) index 0 0

/-- Loop body of `readVarBigInt`: all quantities are nonnegative BigInts, so
they are carried as `Nat`. -/
def readVarBigIntAux (d : List Nat) : Nat → Nat → Nat → Nat → Except String (Nat × Nat)
  | 0, _, _, _ => .error "readVarBigInt fuel exhausted"
  | fuel + 1, index, result, shift => do
    let byte ← getUint8 d index
    let result := result ||| ((byte &&& 127) <<< shift)
    if byte &&& 128 = 0 then
      .ok (result, index + 1)
    else
      readVarBigIntAux d fuel (index + 1) result (shift + 7)

/-- `readVarBigInt(view, index)` from src/thrift.ts. -/
def readVarBigInt (d : List Nat) (index : Nat) : Except String (Nat × Nat) :=
  readVarBigIntAux d (d.length + 1 - index) index 0 0

/-- Loop body of `toVarInt`.  The JS loop terminates within five iterations
for every input (after the first `>>> 7` the value is below 2^25), so the
wrapper's fuel of 6 is never exhausted. -/
def toVarIntAux : Nat → Int → List Int
  | 0, _ => []
  | fuel + 1, n =>
    if jsAnd n (-128) = 0 then [n]
    else jsOr (jsAnd n 127) 128 :: toVarIntAux fuel (jsShrU n 7)

/-- `toVarInt(n)` from src/thrift.ts: converts an int to an unsigned LEB128
varint byte list using JS 32-bit semantics. -/
def toVarInt (n : Int) : List Int := toVarIntAux 6 n

/-! ### PLAIN decoders (src/encoding.js) -/

/-- Read `n` consecutive bytes starting at `i` (the bytes a
`new Uint8Array(buffer, i, n)` view would expose, read one by one). -/
def getBytes (d : List Nat) (i n : Nat) : Except String (List Nat) :=
  (List.range n).mapM (fun k => getUint8 d (i + k))

/-- `readPlainBoolean`: bit `i % 8` of byte `offset + i / 8`, LSB first;
advances by `ceil(count / 8)` bytes. -/
def readPlainBoolean (r : Reader) (count : Nat) : Except String (List Bool × Reader) := do
  let value ← (List.range count).mapM (fun i => do
    let byte ← getUint8 r.data (r.offset + i / 8)
    .ok (byte &&& (1 <<< (i % 8)) != 0))
  .ok (value, { r with offset := r.offset + (count + 7) / 8 })

/-- `readPlainInt32`: `count` little-endian signed 32-bit reads. -/
def readPlainInt32 (r : Reader) (count : Nat) : Except String (List Int × Reader) := do
  let value ← (List.range count).mapM (fun i => getInt32LE r.data (r.offset + i * 4))
  .ok (value, { r with offset := r.offset + count * 4 })

/-- `readPlainInt64`: `count` little-endian signed 64-bit reads. -/
def readPlainInt64 (r : Reader) (count : Nat) : Except String (List Int × Reader) := do
  let value ← (List.range count).mapM (fun i => getBigInt64LE r.data (r.offset + i * 8))
  .ok (value, { r with offset := r.offset + count * 8 })

/-- `readPlainInt96`: per value, a signed 64-bit low part then a signed 32-bit
high part, combined as `(BigInt(high) << BigInt(32)) | low`.  A BigInt left
shift is exact multiplication by `2^32` for either sign, and `|` on BigInts is
two's-complement or, i.e. `Int.lor`. -/
def readPlainInt96 (r : Reader) (count : Nat) : Except String (List Int × Reader) := do
  let value ← (List.range count).mapM (fun i => do
    let low ← getBigInt64LE r.data (r.offset + i * 12)
    let high ← getInt32LE r.data (r.offset + i * 12 + 8)
    .ok (Int.lor (high * 2 ^ 32) low))
  .ok (value, { r with offset := r.offset + count * 12 })

/-- `readPlainFloat`: the 4 raw little-endian bytes of each value.  The
IEEE-754 numeric interpretation is not modelled (no claim inspects float
values); byte consumption and counts are exact. -/
def readPlainFloat (r : Reader) (count : Nat) : Except String (List (List Nat) × Reader) := do
  let value ← (List.range count).mapM (fun i => getBytes r.data (r.offset + i * 4) 4)
  .ok (value, { r with offset := r.offset + count * 4 })

/-- `readPlainDouble`: the 8 raw little-endian bytes of each value (IEEE-754
interpretation not modelled, as for `readPlainFloat`). -/
def readPlainDouble (r : Reader) (count : Nat) : Except String (List (List Nat) × Reader) := do
  let value ← (List.range count).mapM (fun i => getBytes r.data (r.offset + i * 8) 8)
  .ok (value, { r with offset := r.offset + count * 8 })

/-- Loop of `readPlainByteArray`: a little-endian int32 length prefix then
that many bytes, per value.  A negative or overrunning length makes the
`new Uint8Array(buffer, byteOffset, length)` construction throw a
`RangeError`. -/
def readPlainByteArrayAux (d : List Nat) : Nat → Nat → Except String (List (List Nat) × Nat)
  | 0, offset => .ok ([], offset)
  | count + 1, offset => do
    let len ← getInt32LE d offset
    let offset := offset + 4
    if len < 0 then .error "RangeError"
    else if offset + len.toNat ≤ d.length then do
      let bytes := (d.drop offset).take len.toNat
      let (rest, o) ← readPlainByteArrayAux d count (offset + len.toNat)
      .ok (bytes :: rest, o)
    else .error "RangeError"

/-- `readPlainByteArray(reader, count)`. -/
def readPlainByteArray (r : Reader) (count : Nat) : Except String (List (List Nat) × Reader) := do
  let (xs, o) ← readPlainByteArrayAux r.data count r.offset
  .ok (xs, { r with offset := o })

/-- `readPlainByteArrayFixed(reader, fixedLength)`: advances by `fixedLength`
and returns the single `fixedLength`-byte slice just skipped. -/
def readPlainByteArrayFixed (r : Reader) (fixedLength : Nat) : Except String (List Nat × Reader) :=
  if r.offset + fixedLength ≤ r.data.length then
    .ok ((r.data.drop r.offset).take fixedLength, { r with offset := r.offset + fixedLength })
  else .error "RangeError"

/-- The `DecodedArray` a `readPlain` call returns: one constructor per JS
return shape.  `strings` marks a BYTE_ARRAY result passed through
`TextDecoder` (the UTF-8 decoding itself is abstracted: the underlying bytes
are kept); `floats`/`doubles` keep raw per-value byte groups; `fixedBytes` is
the single `Uint8Array` a FIXED_LEN_BYTE_ARRAY read returns; `empty` is the
plain `[]` returned for `count === 0`. -/
inductive DecodedArray where
  | empty
  | bools (xs : List Bool)
  | int32s (xs : List Int)
  | int64s (xs : List Int)
  | int96s (xs : List Int)
  | floats (raw : List (List Nat))
  | doubles (raw : List (List Nat))
  | byteArrays (xs : List (List Nat))
  | strings (utf8bytes : List (List Nat))
  | fixedBytes (xs : List Nat)
  deriving Repr, DecidableEq

/-- Number of array elements the JS value holds: a `fixedBytes` result is a
single `Uint8Array` value. -/
def DecodedArray.numValues : DecodedArray → Nat
  | .empty => 0
  | .bools xs => xs.length
  | .int32s xs => xs.length
  | .int64s xs => xs.length
  | .int96s xs => xs.length
  | .floats xs => xs.length
  | .doubles xs => xs.length
  | .byteArrays xs => xs.length
  | .strings xs => xs.length
  | .fixedBytes _ => 1

/-- `readPlain(reader, type, count, utf8)` from src/encoding.js: dispatch on
the parquet physical type name; `count === 0` short-circuits to `[]`;
unrecognized types throw. -/
def readPlain (r : Reader) (type : String) (count : Nat) (utf8 : Bool) :
    Except String (DecodedArray × Reader) :=
  if count = 0 then .ok (.empty, r)
  else if type = "BOOLEAN" then do
    let (v, r) ← readPlainBoolean r count
    .ok (.bools v, r)
  else if type = "INT32" then do
    let (v, r) ← readPlainInt32 r count
    .ok (.int32s v, r)
  else if type = "INT64" then do
    let (v, r) ← readPlainInt64 r count
    .ok (.int64s v, r)
  else if type = "INT96" then do
    let (v, r) ← readPlainInt96 r count
    .ok (.int96s v, r)
  else if type = "FLOAT" then do
    let (v, r) ← readPlainFloat r count
    .ok (.floats v, r)
  else if type = "DOUBLE" then do
    let (v, r) ← readPlainDouble r count
    .ok (.doubles v, r)
  else if type = "BYTE_ARRAY" then do
    let (v, r) ← readPlainByteArray r count
    if utf8 then .ok (.strings v, r) else .ok (.byteArrays v, r)
  else if type = "FIXED_LEN_BYTE_ARRAY" then do
    let (v, r) ← readPlainByteArrayFixed r count
    .ok (.fixedBytes v, r)
  else .error ("parquet unhandled type: " ++ type)

/-! ### RLE/bit-packed hybrid (src/encoding.js) -/

/-- `widthFromMaxInt(value) = Math.ceil(Math.log2(value + 1))`, which for a
nonnegative integer is `0` at `0` and `⌊log2 value⌋ + 1` otherwise. -/
def widthFromMaxInt (value : Nat) : Nat := if value = 0 then 0 else Nat.log2 value + 1

/-- `maskForBits(bits) = (1 << bits) - 1` with a JS int32 shift. -/
def maskForBits (bits : Nat) : Int := jsShl 1 (bits : Int) - 1

/-- `readRle(reader, header, bitWidth)`: `header >>> 1` copies of one value
read little-endian over `(bitWidth + 7) >> 3` bytes; only byte widths 1, 2
and 4 are implemented, anything else throws. -/
def readRle (r : Reader) (header : Int) (bitWidth : Nat) : Except String (List Int × Reader) :=
  let count := toUint32 header / 2
  let width := (bitWidth + 7) / 8
  if width = 1 then do
    let v ← getUint8 r.data r.offset
    .ok (List.replicate count (v : Int), { r with offset := r.offset + 1 })
  else if width = 2 then do
    let v ← getUint16LE r.data r.offset
    .ok (List.replicate count (v : Int), { r with offset := r.offset + 2 })
  else if width = 4 then do
    let v ← getUint32LE r.data r.offset
    .ok (List.replicate count (v : Int), { r with offset := r.offset + 4 })
  else .error ("parquet invalid rle width " ++ toString width)

/-- Loop of `readBitPacked`: a sliding register `data` refilled byte by byte,
all arithmetic in JS int32 semantics.  `count` counts packed slots (values
beyond `remaining` are consumed but not emitted); the loop exits when `count`
reaches zero.  A negative initial `count` (adversarial header) never reaches
zero: fuel exhaustion models that divergence. -/
def readBitPackedAux (d : List Nat) (bitWidth : Nat) (mask : Int) :
    Nat → Int → Int → Int → Int → Int → Nat → List Int → Except String (List Int × Nat)
  | 0, _, _, _, _, _, _, _ => .error "parquet bitpack fuel exhausted"
  | fuel + 1, count, data, left, right, remaining, offset, value =>
    if count = 0 then .ok (value, offset)
    else if 8 < right then
      readBitPackedAux d bitWidth mask fuel count (jsShr data 8) (left - 8) (right - 8)
        remaining offset value
    else if left - right < (bitWidth : Int) then do
      let byte ← getUint8 d offset
      readBitPackedAux d bitWidth mask fuel count (jsOr data (jsShl (byte : Int) left)) (left + 8)
        right remaining (offset + 1) value
    else
      let value' := if 0 < remaining then value ++ [jsAnd (jsShr data right) mask] else value
      let remaining' := if 0 < remaining then remaining - 1 else remaining
      readBitPackedAux d bitWidth mask fuel (count - 1) data left (right + (bitWidth : Int))
        remaining' offset value'

/-- `readBitPacked(reader, header, bitWidth, remaining)`: `(header >> 1) << 3`
packed values, LSB-first, `bitWidth` bits each.  The first byte is read only
when in range; past the end a zero register is used unless the mask is
nonzero, in which case the read throws. -/
def readBitPacked (r : Reader) (header : Int) (bitWidth : Nat) (remaining : Int) :
    Except String (List Int × Reader) :=
  let count := jsShl (jsShr header 1) 3
  let mask := maskForBits bitWidth
  let fuel := toUint32 count * (bitWidth + 8) + r.data.length + 16
  if r.offset < r.data.length then do
    let data ← getUint8 r.data r.offset
    let (value, offset) ←
      readBitPackedAux r.data bitWidth mask fuel count (data : Int) 8 0 remaining (r.offset + 1) []
    .ok (value, { r with offset := offset })
  else if mask ≠ 0 then
    .error ("parquet bitpack offset " ++ toString r.offset ++ " out of range")
  else do
    let (value, offset) ←
      readBitPackedAux r.data bitWidth mask fuel count 0 8 0 remaining r.offset []
    .ok (value, { r with offset := offset })

/-- Loop of `readRleBitPackedHybrid`: runs while the byte budget is not
exhausted and fewer than `numValues` values have been produced.  Each
iteration consumes at least the varint header byte, so fuel `length + 1`
dominates the iteration count. -/
def readRleBitPackedHybridAux (width : Nat) (length : Int) (numValues : Nat) (startOffset : Nat) :
    Nat → List Int → Reader → Except String (List Int × Reader)
  | 0, _, _ => .error "parquet rle/bitpack fuel exhausted"
  | fuel + 1, value, r =>
    if ((r.offset - startOffset : Nat) : Int) < length ∧ value.length < numValues then do
      let (header, newOffset) ← readVarInt r.data r.offset
      let r := { r with offset := newOffset }
      if jsAnd header 1 = 0 then do
        let (rle, r) ← readRle r header width
        readRleBitPackedHybridAux width length numValues startOffset fuel (value ++ rle) r
      else do
        let (bitPacked, r) ← readBitPacked r header width ((numValues : Int) - value.length)
        readRleBitPackedHybridAux width length numValues startOffset fuel (value ++ bitPacked) r
    else .ok (value, r)

/-- `readRleBitPackedHybrid(reader, width, length, numValues)`: when `length`
is zero (falsy) a little-endian int32 length prefix is read first and rejected
if negative. -/
def readRleBitPackedHybrid (r : Reader) (width : Nat) (length : Int) (numValues : Nat) :
    Except String (List Int × Reader) :=
  if length = 0 then do
    let len ← getInt32LE r.data r.offset
    let r := { r with offset := r.offset + 4 }
    if len < 0 then .error ("parquet invalid rle/bitpack length " ++ toString len)
    else readRleBitPackedHybridAux width len numValues r.offset (len.toNat + 1) [] r
  else
    readRleBitPackedHybridAux width length numValues r.offset (length.toNat + 1) [] r

/-- Loop of `readData`: accumulate hybrid chunks until `count` values are
seen, breaking on an empty chunk (EOF).  Each non-breaking chunk contributes
at least one value, so fuel `count + 1` dominates. -/
def readDataAux (bitWidth : Nat) (count : Nat) : Nat → List Int → Reader → Except String (List Int × Reader)
  | 0, _, _ => .error "parquet readData fuel exhausted"
  | fuel + 1, value, r =>
    if value.length < count then do
      let (rle, r') ← readRleBitPackedHybrid r bitWidth 0 count
      if rle.length = 0 then .ok (value, r')
      else readDataAux bitWidth count fuel (value ++ rle) r'
    else .ok (value, r)

/-- `readData(reader, encoding, count, bitWidth)` from src/encoding.js: only
the RLE encoding is supported. -/
def readData (r : Reader) (encoding : String) (count : Nat) (bitWidth : Nat) :
    Except String (List Int × Reader) :=
  if encoding = "RLE" then readDataAux bitWidth count (count + 1) [] r
  else .error ("parquet encoding not supported " ++ encoding)

/-! ### Dremel record assembly (src/assemble.js)

The JS algorithm mutates a tree of nested arrays through a stack of
references.  The embedding keeps the stack as a list of open containers
(head = current/top, last = root output array); a child list is attached to
its parent when it is closed, which is equivalent to the eager linking in JS
because a parent receives no appends while a child above it is open. -/

/-- A JS value in an assembled row tree: a leaf value, the `undefined` null
sentinel, or a nested list. -/
inductive Item (α : Type) where
  | val (a : α)
  | nullItem
  | list (items : List (Item α))
  deriving Repr

/-- Close the top container into its parent. -/
def closeTop {α : Type} : List (List (Item α)) → List (List (Item α))
  | top :: parent :: rest => (parent ++ [Item.list top]) :: rest
  | s => s

/-- `while (rep < containerStack.length - 1) containerStack.pop()`; each pop
shortens the stack, so fuel `stack.length` dominates. -/
def popToLevel {α : Type} (rep : Nat) : Nat → List (List (Item α)) → List (List (Item α))
  | 0, stack => stack
  | fuel + 1, stack =>
    if rep + 1 < stack.length then popToLevel rep fuel (closeTop stack) else stack

/-- `for (j = containerStack.length; j < targetDepth; j++)`: open a new empty
list at each missing depth. -/
def openLists {α : Type} (target : Nat) : Nat → List (List (Item α)) → List (List (Item α))
  | 0, stack => stack
  | fuel + 1, stack => if stack.length < target then openLists target fuel ([] :: stack) else stack

/-- `currentContainer.push(item)`: append to the top (current) container. -/
def pushItem {α : Type} (item : Item α) : List (List (Item α)) → List (List (Item α))
  | top :: rest => (top ++ [item]) :: rest
  | [] => [[item]]

/-- Main loop of `assembleObjects` over the repetition levels.  `def_` is
`definitionLevels[i]` when the level array is nonempty, else
`maxDefinitionLevel` (inputs always have matching `D`/`R` lengths here, so
the JS out-of-range NaN propagation is not exercised).  The JS
`targetDepth = (def + 1) / 2` is real division and the integer loop counter
runs while `j < targetDepth`, i.e. until the depth reaches
`⌈(def + 1) / 2⌉ = (def + 2) / 2` in integer arithmetic.  A
`values[valueIndex++]` read past the end yields `undefined`. -/
def assembleLoop {α : Type} (dLevels : List Nat) (values : List α) (isNullable : Bool)
    (maxDefinitionLevel maxRepetitionLevel : Nat) :
    List Nat → Nat → Nat → List (List (Item α)) → List (List (Item α)) × Nat
  | [], _, valueIndex, stack => (stack, valueIndex)
  | rep :: reps, i, valueIndex, stack =>
    let def_ := if dLevels.length ≠ 0 then (dLevels.get? i).getD maxDefinitionLevel
                else maxDefinitionLevel
    let stack := if rep ≠ maxRepetitionLevel then popToLevel rep stack.length stack else stack
    let targetDepth := if isNullable then (def_ + 2) / 2 else maxRepetitionLevel + 1
    let stack := openLists targetDepth targetDepth stack
    let (stack, valueIndex) :=
      if def_ = maxDefinitionLevel then
        (pushItem (match values.get? valueIndex with
                   | some v => Item.val v
                   | none => Item.nullItem) stack, valueIndex + 1)
      else if isNullable then
        (pushItem (if def_ % 2 = 0 then Item.nullItem else Item.list []) stack, valueIndex)
      else (stack, valueIndex)
    assembleLoop dLevels values isNullable maxDefinitionLevel maxRepetitionLevel
      reps (i + 1) valueIndex stack

/-- Close every still-open container down to the root and return the root's
contents (in JS the links already exist; here they are materialized). -/
def closeAll {α : Type} : Nat → List (List (Item α)) → List (Item α)
  | _, [root] => root
  | 0, stack => stack.getLastD []
  | fuel + 1, stack => closeAll fuel (closeTop stack)

/-- The nested empty lists of depth `k` built by the empty-output edge case. -/
def nestedEmpty {α : Type} : Nat → Item α
  | 0 => Item.list []
  | 1 => Item.list []
  | k + 2 => Item.list [nestedEmpty (k + 1)]

/-- `assembleObjects` from src/assemble.js.  `outputLength` reconstructs the
JS `output.length` at loop exit: the root's closed items plus one for an open
child chain (which JS has already linked into the root).  When nothing was
emitted the stack is necessarily the lone empty root, so the edge cases
operate on an empty output exactly as in JS. -/
def assembleObjects {α : Type} (definitionLevels : List Nat) (repetitionLevels : List Nat)
    (values : List α) (isNullable : Bool) (maxDefinitionLevel maxRepetitionLevel : Nat) :
    List (Item α) :=
  let (stack, _) := assembleLoop definitionLevels values isNullable maxDefinitionLevel
    maxRepetitionLevel repetitionLevels 0 0 [[]]
  let outputLength := (stack.getLastD []).length + (if stack.length ≥ 2 then 1 else 0)
  if outputLength = 0 then
    if values.length > 0 ∧ maxRepetitionLevel = 0 then [Item.list (values.map Item.val)]
    else if maxDefinitionLevel = 0 then []
    else [nestedEmpty maxDefinitionLevel]
  else closeAll stack.length stack

/-! ### Footer validation (src/metadata.js) -/

/-- `parquetMetadata(arrayBuffer)`, front part: footer magic and metadata
length validation.  The source reads `metadataLength` as a uint32, so its
`metadataLength <= 0` test can only fire at zero.  The embedding returns the
byte range handed to `deserializeTCompactProtocol`; the Thrift parse of that
range and the field-id mapping are downstream of the behavior claimed here
and are not modelled. -/
def parquetMetadata (arrayBuffer : List Nat) : Except String (List Nat) := do
  let len := arrayBuffer.length
  if len < 8 then .error "parquet file is too short"
  else do
    let magic ← getUint32LE arrayBuffer (len - 4)
    if magic ≠ 0x31524150 then .error "parquet file invalid magic number"
    else do
      let metadataLength ← getUint32LE arrayBuffer (len - 8)
      if metadataLength = 0 then .error "parquet invalid metadata length"
      else if metadataLength > len - 8 then .error "parquet metadata length exceeds buffer size"
      else .ok ((arrayBuffer.drop (len - 8 - metadataLength)).take metadataLength)

/-! ### V1 definition levels (src/datapage.js)

`readDefinitionLevels` consults two helpers from src/schema.js, a file the
sources do not include; they are modelled from the spec over the repetition
types of the nodes on the column path (root excluded). -/

/-- Modelled from the spec: `isRequired` from schema.js (absent from the
sources): "A path is required iff every node on it is REQUIRED." -/
def isRequired (pathReps : List String) : Bool := pathReps.all (· == "REQUIRED")

/-- Modelled from the spec: `getMaxDefinitionLevel` from schema.js (absent
from the sources): "Max definition level of a column path is the count of
nodes on the path (excluding root) whose repetition type is not REQUIRED." -/
def getMaxDefinitionLevel (pathReps : List String) : Nat :=
  (pathReps.filter (fun t => t ≠ "REQUIRED")).length

/-- `readDefinitionLevels(reader, daph, schema, path_in_schema)` from
src/datapage.js: decode `daph.num_values` levels with `readData`, count the
nulls (the JS loop starts `numNulls` at `num_values` and decrements once per
level equal to the max, so it can go negative on a malformed stream — hence
`Int`), and truncate the level array to empty when there are no nulls. -/
def readDefinitionLevels (r : Reader) (numValues : Nat) (defEncoding : String)
    (pathReps : List String) : Except String ((List Int × Int) × Reader) :=
  if !isRequired pathReps then
    let maxDefinitionLevel := getMaxDefinitionLevel pathReps
    let bitWidth := widthFromMaxInt maxDefinitionLevel
    if bitWidth ≠ 0 then do
      let (definitionLevels, r) ← readData r defEncoding numValues bitWidth
      let numNulls : Int := (numValues : Int) -
        (definitionLevels.countP (fun d => d == (maxDefinitionLevel : Int)) : Nat)
      let definitionLevels := if numNulls = 0 then [] else definitionLevels
      .ok ((definitionLevels, numNulls), r)
    else .ok (([], 0), r)
  else .ok (([], 0), r)

/-! ### Arithmetic facts about the JS coercions and byte reads -/

theorem int32OfUint32_of_lt {u : Nat} (h : u < 2 ^ 31) : int32OfUint32 u = (u : Int) := by
  unfold int32OfUint32
  rw [if_pos h]

theorem toUint32_natCast {n : Nat} (h : n < 2 ^ 32) : toUint32 (n : Int) = n := by
  unfold toUint32
  omega

theorem getUint8_of_drop : ∀ (d : List Nat) (i : Nat) (b : Nat) (rest : List Nat),
    d.drop i = b :: rest → getUint8 d i = .ok (b % 256) := by
  intro d i
  induction i generalizing d with
  | zero =>
    intro b rest h
    simp only [List.drop_zero] at h
    subst h
    rfl
  | succ i ih =>
    intro b rest h
    cases d with
    | nil => simp at h
    | cons x xs =>
      simp only [List.drop_succ_cons] at h
      simpa [getUint8] using ih xs b rest h

theorem shiftLeft_or_of_lt {a b s : Nat} (hb : b < 2 ^ s) : (a <<< s) ||| b = 2 ^ s * a + b := by
  apply Nat.eq_of_testBit_eq
  intro j
  rw [Nat.testBit_or, Nat.testBit_shiftLeft, Nat.testBit_mul_pow_two_add a hb j]
  by_cases hj : j < s
  · simp [hj, Nat.not_le.mpr hj]
  · have hj' : s ≤ j := Nat.not_lt.mp hj
    have hbj : b.testBit j = false :=
      Nat.testBit_lt_two_pow (lt_of_lt_of_le hb (Nat.pow_le_pow_right (by norm_num) hj'))
    simp [hj, hj', hbj]

theorem land_mul_pow_two {q r m s : Nat} (hr : r < 2 ^ s) :
    (2 ^ s * q + r) &&& (2 ^ s * m) = 2 ^ s * (q &&& m) := by
  apply Nat.eq_of_testBit_eq
  intro j
  have h0 : (0 : Nat) < 2 ^ s := Nat.two_pow_pos s
  rw [Nat.testBit_and, Nat.testBit_mul_pow_two_add q hr j]
  have hm : (2 ^ s * m).testBit j = if j < s then false else m.testBit (j - s) := by
    have h := Nat.testBit_mul_pow_two_add m (b := 0) (i := s) h0 j
    simpa using h
  have hqm : (2 ^ s * (q &&& m)).testBit j = if j < s then false else (q &&& m).testBit (j - s) := by
    have h := Nat.testBit_mul_pow_two_add (q &&& m) (b := 0) (i := s) h0 j
    simpa using h
  rw [hm, hqm]
  by_cases hj : j < s <;> simp [hj, Nat.testBit_and]

theorem land_two_pow_eq_zero {n k : Nat} (h : n < 2 ^ k) : n &&& 2 ^ k = 0 := by
  apply Nat.eq_of_testBit_eq
  intro j
  rw [Nat.testBit_and, Nat.zero_testBit]
  by_cases hj : j = k
  · subst hj
    simp [Nat.testBit_lt_two_pow h]
  · simp [Nat.testBit_two_pow, Ne.symm hj]

theorem land_two_pow_add {r k : Nat} (hr : r < 2 ^ k) : (2 ^ k + r) &&& 2 ^ k = 2 ^ k := by
  have h := land_mul_pow_two (q := 1) (m := 1) (s := k) hr
  simpa using h

/-! ### C1: map-like Dremel assembly -/

/-- C1: for the map-like input D=[2,2,2,2,1,1,1,0,2,2], R=[0,1,0,1,0,0,0,0,0,1],
V=[k1,k2,k1,k2,k1,k3] with isNullable, maxDefinitionLevel 2 and
maxRepetitionLevel 1, `assembleObjects` returns exactly seven rows:
[k1,k2], [k1,k2], [], [], [], a null sentinel, and [k1,k3]. -/
theorem c1_assemble_map_like :
    assembleObjects [2, 2, 2, 2, 1, 1, 1, 0, 2, 2] [0, 1, 0, 1, 0, 0, 0, 0, 0, 1]
      ["k1", "k2", "k1", "k2", "k1", "k3"] true 2 1
      = [Item.list [Item.val "k1", Item.val "k2"],
         Item.list [Item.val "k1", Item.val "k2"],
         Item.list [], Item.list [], Item.list [],
         Item.nullItem,
         Item.list [Item.val "k1", Item.val "k3"]] := rfl

/-! ### C2: INT96 assembly of low/high parts -/

/-- C2: the claim (and the repository's own readPlain test) require INT96 to
be combined as `(high << 64) | low`; `readPlainInt96` instead computes
`(high << 32) | low`.  At the failing input (12 bytes: low = 0, high = 1) the
code yields `2^32`, whereas the claimed formula yields `2^64`. -/
theorem c2_int96_shift_bug :
    readPlain ⟨[0, 0, 0, 0, 0, 0, 0, 0, 1, 0, 0, 0], 0⟩ "INT96" 1 false
      = .ok (.int96s [(2 : Int) ^ 32], ⟨[0, 0, 0, 0, 0, 0, 0, 0, 1, 0, 0, 0], 12⟩)
    ∧ (2 : Int) ^ 32 ≠ Int.lor ((1 : Int) * 2 ^ 64) 0 := by
  exact ⟨rfl, by decide⟩

/-! ### C9: readPlain with count zero -/

/-- C9: for every type string (recognized or not) and reader state,
`readPlain` with count 0 returns the empty array and leaves the reader
untouched; the unhandled-type error can only be raised for a nonzero count. -/
theorem c9_readPlain_count_zero (r : Reader) (t : String) (u : Bool) :
    readPlain r t 0 u = .ok (.empty, r)
    ∧ ∀ c : Nat, readPlain r t c u = .error ("parquet unhandled type: " ++ t) → c ≠ 0 := by
  constructor
  · simp [readPlain]
  · intro c h hc
    subst hc
    simp [readPlain] at h

/-- C9 witness: concrete instantiation; the unknown type "invalidType" errors
at count 1, so the hypothesis of the second conjunct is discharged there. -/
theorem c9_witness :
    readPlain ⟨[], 0⟩ "invalidType" 0 true = .ok (.empty, ⟨[], 0⟩) ∧ (1 : Nat) ≠ 0 :=
  ⟨(c9_readPlain_count_zero ⟨[], 0⟩ "invalidType" true).1,
   (c9_readPlain_count_zero ⟨[], 0⟩ "invalidType" true).2 1 rfl⟩

/-! ### C5: readPlain on FIXED_LEN_BYTE_ARRAY -/

/-- C5 counterexample: `readPlain` with type FIXED_LEN_BYTE_ARRAY and count 3
over the bytes [4,5,6] returns a single 3-byte `Uint8Array` (one value, not
three values of `type_length` bytes each), advancing the offset by 3. -/
theorem c5_counterexample :
    readPlain ⟨[4, 5, 6], 0⟩ "FIXED_LEN_BYTE_ARRAY" 3 false
      = .ok (.fixedBytes [4, 5, 6], ⟨[4, 5, 6], 3⟩)
    ∧ DecodedArray.numValues (.fixedBytes [4, 5, 6]) = 1 ∧ (1 : Nat) ≠ 3 :=
  ⟨rfl, rfl, by decide⟩

/-- C5 amended: `readPlain` treats the count argument as the fixed length for
FIXED_LEN_BYTE_ARRAY: for n > 0 it returns one byte array holding exactly the
n bytes at the current offset and advances the offset by n (the schema's
`type_length` plays no role). -/
theorem c5_readPlain_flba (r : Reader) (n : Nat) (u : Bool) (hn : 0 < n)
    (hb : r.offset + n ≤ r.data.length) :
    readPlain r "FIXED_LEN_BYTE_ARRAY" n u
      = .ok (.fixedBytes ((r.data.drop r.offset).take n), { r with offset := r.offset + n }) := by
  have hn' : n ≠ 0 := Nat.pos_iff_ne_zero.mp hn
  simp only [readPlain, readPlainByteArrayFixed, hn', if_neg, if_pos hb]
  simp
  rfl

/-- C5 witness for the amended theorem at count 3 over [4,5,6]. -/
theorem c5_witness :
    (0 < 3 ∧ (0 : Nat) + 3 ≤ 3)
    ∧ readPlain ⟨[4, 5, 6], 0⟩ "FIXED_LEN_BYTE_ARRAY" 3 true
        = .ok (.fixedBytes [4, 5, 6], ⟨[4, 5, 6], 3⟩) :=
  ⟨⟨by decide, by decide⟩, c5_readPlain_flba ⟨[4, 5, 6], 0⟩ 3 true (by decide) (by decide)⟩

/-! ### C4: RLE runs -/

theorem exceptBind_ok {ε α β : Type} (a : α) (f : α → Except ε β) :
    (Except.ok a >>= f) = f a := rfl

theorem exceptBind_error {ε α β : Type} (e : ε) (f : α → Except ε β) :
    ((Except.error e : Except ε α) >>= f) = Except.error e := rfl

theorem readLE_one (d : List Nat) (i : Nat) : readLE d i 1 = getUint8 d i := by
  unfold readLE
  cases h : getUint8 d i <;> rfl

/-- C4 counterexample: `readRle` rejects bit width 0 (the claim promises a
0-byte read emitting zeros) and bit width 17 (the claim places 17 in the
4-byte band, but `(17 + 7) >> 3 = 3` and 3-byte reads throw). -/
theorem c4_counterexample :
    readRle ⟨[5], 0⟩ 2 0 = .error "parquet invalid rle width 0"
    ∧ readRle ⟨[1, 0, 0, 0], 0⟩ 2 17 = .error "parquet invalid rle width 3" :=
  ⟨rfl, rfl⟩

/-- C4 amended: an RLE run emits `header >>> 1` copies of one value read as a
little-endian unsigned integer of `ceil(bitWidth / 8)` bytes, but only when
that byte count is 1, 2 or 4, i.e. for bit widths in [1,16] ∪ [25,32]; bit
width 0 and bit widths 17–24 raise an invalid-rle-width error instead. -/
theorem c4_readRle_supported_widths (r : Reader) (header : Int) (bitWidth : Nat)
    (hw : (1 ≤ bitWidth ∧ bitWidth ≤ 16) ∨ (25 ≤ bitWidth ∧ bitWidth ≤ 32))
    (v : Nat) (hv : readLE r.data r.offset ((bitWidth + 7) / 8) = .ok v) :
    readRle r header bitWidth
      = .ok (List.replicate (toUint32 header / 2) (v : Int),
             { r with offset := r.offset + (bitWidth + 7) / 8 }) := by
  have hcase : (bitWidth + 7) / 8 = 1 ∨ (bitWidth + 7) / 8 = 2 ∨ (bitWidth + 7) / 8 = 4 := by
    omega
  rcases hcase with h | h | h <;> rw [h] at hv ⊢ <;>
    simp only [readRle, h] <;>
    [ (rw [readLE_one] at hv; simp only [hv]; rfl);
      (simp only [getUint16LE, hv]; rfl);
      (simp only [getUint32LE, hv]; rfl) ]

/-- C4 witness: bit width 3 over the bytes [7,1] with header 4 emits two
copies of 7 from a one-byte read. -/
theorem c4_witness :
    ((1 ≤ 3 ∧ 3 ≤ 16) ∨ (25 ≤ 3 ∧ 3 ≤ 32))
    ∧ readRle ⟨[7, 1], 0⟩ 4 3 = .ok ([7, 7], ⟨[7, 1], 1⟩) := by
  refine ⟨by decide, ?_⟩
  have h := c4_readRle_supported_widths ⟨[7, 1], 0⟩ 4 3 (by decide) 7 rfl
  simpa using h

/-! ### C3: value and byte budgets of the hybrid decoder -/

/-- C3 counterexample: width 1, declared length 4, declared numValues 1 over
the bytes [4,5,0,0]: the single RLE run (header 4, count 2) overshoots,
producing two values instead of one, and decoding stops after 2 of the 4
declared bytes. -/
theorem c3_counterexample :
    readRleBitPackedHybrid ⟨[4, 5, 0, 0], 0⟩ 1 4 1 = .ok ([5, 5], ⟨[4, 5, 0, 0], 2⟩)
    ∧ ([5, 5] : List Int).length ≠ 1 ∧ ((2 : Nat) - 0 : Int) ≠ 4 :=
  ⟨rfl, by decide, by decide⟩

theorem c3_hybridAux_exit {width : Nat} {length : Int} {numValues : Nat} {startOffset : Nat} :
    ∀ (fuel : Nat) (acc : List Int) (r : Reader) (vals : List Int) (r' : Reader),
      readRleBitPackedHybridAux width length numValues startOffset fuel acc r = .ok (vals, r') →
      numValues ≤ vals.length ∨ length ≤ ((r'.offset - startOffset : Nat) : Int)
  | 0, acc, r, vals, r', h => by simp [readRleBitPackedHybridAux] at h
  | fuel + 1, acc, r, vals, r', h => by
    rw [readRleBitPackedHybridAux] at h
    split at h
    · rename_i hc
      cases hv : readVarInt r.data r.offset with
      | error e => rw [hv] at h; exact Except.noConfusion h
      | ok p =>
        obtain ⟨header, newOffset⟩ := p
        rw [hv] at h
        simp only [exceptBind_ok] at h
        split at h
        · cases hr : readRle { r with offset := newOffset } header width with
          | error e => rw [hr] at h; exact Except.noConfusion h
          | ok q =>
            obtain ⟨rle, r₂⟩ := q
            rw [hr] at h
            simp only [exceptBind_ok] at h
            exact c3_hybridAux_exit fuel (acc ++ rle) r₂ vals r' h
        · cases hb : readBitPacked { r with offset := newOffset } header width
              ((numValues : Int) - acc.length) with
          | error e => rw [hb] at h; exact Except.noConfusion h
          | ok q =>
            obtain ⟨bitPacked, r₂⟩ := q
            rw [hb] at h
            simp only [exceptBind_ok] at h
            exact c3_hybridAux_exit fuel (acc ++ bitPacked) r₂ vals r' h
    · rename_i hc
      cases h
      rcases Decidable.not_and_iff_or_not.mp hc with hc | hc
      · exact Or.inr (Int.not_lt.mp hc)
      · exact Or.inl (Nat.not_lt.mp hc)

/-- C3 amended: with a declared byte length and numValues, the hybrid decoder
stops only once the value budget is filled or the byte budget is exhausted:
on success it has produced at least `numValues` values (an overshooting final
RLE run can produce more — see the counterexample) or consumed at least
`length` bytes; it can therefore stop before consuming the declared byte
length, and exact equality holds in neither direction in general. -/
theorem c3_hybrid_budget_exit (r : Reader) (width : Nat) (length : Int) (numValues : Nat)
    (hl : length ≠ 0) (vals : List Int) (r' : Reader)
    (h : readRleBitPackedHybrid r width length numValues = .ok (vals, r')) :
    numValues ≤ vals.length ∨ length ≤ ((r'.offset - r.offset : Nat) : Int) := by
  unfold readRleBitPackedHybrid at h
  rw [if_neg hl] at h
  exact c3_hybridAux_exit _ _ _ vals r' h

/-- C3 witness: width 1, length 2, numValues 2 over [4,5] decodes to [5,5]
having consumed both declared bytes. -/
theorem c3_witness :
    ((2 : Int) ≠ 0 ∧ readRleBitPackedHybrid ⟨[4, 5], 0⟩ 1 2 2 = .ok ([5, 5], ⟨[4, 5], 2⟩))
    ∧ (2 ≤ ([5, 5] : List Int).length ∨ (2 : Int) ≤ ((2 - 0 : Nat) : Int)) :=
  ⟨⟨by decide, rfl⟩, c3_hybrid_budget_exit ⟨[4, 5], 0⟩ 1 2 2 (by decide) [5, 5] ⟨[4, 5], 2⟩ rfl⟩

/-! ### C6: footer metadata-length validation -/

/-- C6 counterexample: a 9-byte file whose declared metadata length is
1 = fileLength − 8.  The claim requires an invalid-metadata-length error for
lengths ≥ fileLength − 8, but the code only rejects strictly larger lengths
and parses this boundary case successfully. -/
theorem c6_counterexample :
    parquetMetadata [0, 1, 0, 0, 0, 0x50, 0x41, 0x52, 0x31] = .ok [0]
    ∧ getUint32LE [0, 1, 0, 0, 0, 0x50, 0x41, 0x52, 0x31] 1 = .ok 1
    ∧ ([0, 1, 0, 0, 0, 0x50, 0x41, 0x52, 0x31] : List Nat).length - 8 ≤ 1 :=
  ⟨rfl, rfl, by decide⟩

/-- C6 amended: for a buffer of length ≥ 8 ending in the magic, the
invalid-metadata-length error class fires exactly when the little-endian
uint32 at offset length − 8 is 0 or strictly exceeds fileLength − 8 (the
boundary value fileLength − 8 itself is accepted); otherwise the metadata is
parsed from [fileLength − 8 − metadataLength, fileLength − 8). -/
theorem c6_metadata_length_check (d : List Nat) (mlen : Nat)
    (hlen : 8 ≤ d.length)
    (hmagic : getUint32LE d (d.length - 4) = .ok 0x31524150)
    (hread : getUint32LE d (d.length - 8) = .ok mlen) :
    ((parquetMetadata d = .error "parquet invalid metadata length"
        ∨ parquetMetadata d = .error "parquet metadata length exceeds buffer size")
      ↔ (mlen = 0 ∨ d.length - 8 < mlen))
    ∧ (mlen ≠ 0 → mlen ≤ d.length - 8 →
        parquetMetadata d = .ok ((d.drop (d.length - 8 - mlen)).take mlen)) := by
  have hd : ¬ d.length < 8 := by omega
  have hexp : parquetMetadata d =
      if mlen = 0 then .error "parquet invalid metadata length"
      else if mlen > d.length - 8 then .error "parquet metadata length exceeds buffer size"
      else .ok ((d.drop (d.length - 8 - mlen)).take mlen) := by
    unfold parquetMetadata
    rw [if_neg hd, hmagic]
    simp only [exceptBind_ok]
    rw [if_neg (show ¬((0x31524150 : Nat) ≠ 0x31524150) from by norm_num), hread]
    simp only [exceptBind_ok]
  rw [hexp]
  by_cases h0 : mlen = 0
  · simp [h0]
  · by_cases h1 : d.length - 8 < mlen
    · simp [h0, h1, Nat.not_le.mpr h1]
    · simp [h0, h1, Nat.not_lt.mp h1]

/-- C6 witness: the amended theorem applied to the 9-byte boundary file. -/
theorem c6_witness :
    (8 ≤ ([0, 1, 0, 0, 0, 0x50, 0x41, 0x52, 0x31] : List Nat).length)
    ∧ parquetMetadata [0, 1, 0, 0, 0, 0x50, 0x41, 0x52, 0x31] = .ok [0] :=
  ⟨by decide,
   (c6_metadata_length_check [0, 1, 0, 0, 0, 0x50, 0x41, 0x52, 0x31] 1 (by decide) rfl rfl).2
     (by decide) (by decide)⟩

/-! ### C8: no ten-byte varint limit in the Thrift decoder -/

theorem c8_aux : ∀ (k : Nat) (d : List Nat) (index shift fuel : Nat) (rest : List Nat),
    d.drop index = List.replicate k 128 ++ 1 :: rest →
    k + 1 ≤ fuel →
    readVarBigIntAux d fuel index 0 shift = .ok (2 ^ (shift + 7 * k), index + k + 1) := by
  intro k
  induction k with
  | zero =>
    intro d index shift fuel rest h hf
    obtain ⟨f, rfl⟩ : ∃ f, fuel = f + 1 := ⟨fuel - 1, by omega⟩
    rw [readVarBigIntAux, getUint8_of_drop d index 1 rest (by simpa using h)]
    have e2 : ((1 : Nat) &&& 127) = 1 := by decide
    have e3 : ((1 : Nat) &&& 128) = 0 := by decide
    simp [exceptBind_ok, e2, e3, Nat.shiftLeft_eq]
  | succ k ih =>
    intro d index shift fuel rest h hf
    obtain ⟨f, rfl⟩ : ∃ f, fuel = f + 1 := ⟨fuel - 1, by omega⟩
    have hdrop : d.drop index = 128 :: (List.replicate k 128 ++ 1 :: rest) := by
      simpa [List.replicate_succ] using h
    rw [readVarBigIntAux, getUint8_of_drop d index 128 _ hdrop]
    have e2 : ((128 : Nat) &&& 127) = 0 := by decide
    have e3 : ((128 : Nat) &&& 128) = 128 := by decide
    have hnext : d.drop (index + 1) = List.replicate k 128 ++ 1 :: rest := by
      rw [← List.tail_drop, hdrop]
      rfl
    have hrec := ih d (index + 1) (shift + 7) f rest hnext (by omega)
    simp only [exceptBind_ok, Nat.reduceMod, e2, e3]
    norm_num [Nat.zero_shiftLeft]
    rw [hrec]
    have hp : shift + 7 + 7 * k = shift + 7 * (k + 1) := by omega
    have hq : index + 1 + k + 1 = index + (k + 1) + 1 := by omega
    rw [hp, hq]

/-- C8 amended: the Thrift varint decoder imposes no ten-byte limit — a
varint of any length that fits in the buffer is decoded silently, high-bit
bytes simply extending the shift (here, k continuation bytes then a final 1
decode to 2^(7k) with no error); only running past the end of the buffer
fails.  At k = 10 the varint occupies eleven bytes, contradicting the claimed
decoder error. -/
theorem c8_varint_no_ten_byte_limit (k : Nat) :
    readVarBigInt (List.replicate k 128 ++ [1]) 0 = .ok (2 ^ (7 * k), k + 1) := by
  have h := c8_aux k (List.replicate k 128 ++ [1]) 0 0
      ((List.replicate k 128 ++ [1]).length + 1) [] (by simp) (by simp)
  simpa [readVarBigInt] using h

/-- C8 counterexample: an eleven-byte varint is decoded successfully (to 2^70
by `readVarBigInt`, and to 64 by the 32-bit `readVarInt`, whose shift count
wraps mod 32) — no decoder error is raised. -/
theorem c8_counterexample :
    readVarBigInt (List.replicate 10 128 ++ [1]) 0 = .ok (2 ^ 70, 11)
    ∧ (List.replicate 10 (128 : Nat) ++ [1]).length = 11
    ∧ readVarInt (List.replicate 10 128 ++ [1]) 0 = .ok (64, 11) :=
  ⟨rfl, rfl, rfl⟩

/-! ### C10: V1 definition-level handling -/

theorem getMaxDefinitionLevel_ne_zero {pathReps : List String}
    (h1 : isRequired pathReps = false) : getMaxDefinitionLevel pathReps ≠ 0 := by
  have hex : ∃ x ∈ pathReps, x ≠ "REQUIRED" := by simpa [isRequired] using h1
  obtain ⟨x, hxmem, hxne⟩ := hex
  have hxf : x ∈ pathReps.filter (fun t => t ≠ "REQUIRED") :=
    List.mem_filter.mpr ⟨hxmem, by simpa using hxne⟩
  have hpos : 0 < (pathReps.filter (fun t => t ≠ "REQUIRED")).length :=
    List.length_pos.mpr (List.ne_nil_of_mem hxf)
  simpa [getMaxDefinitionLevel] using Nat.pos_iff_ne_zero.mp hpos

/-- C10: for a non-required column whose level stream decodes to exactly
`num_values` levels, `readDefinitionLevels` returns an empty level array
exactly when the computed null count is zero — equivalently, when every
decoded level equals the max definition level — and otherwise returns all
`num_values` decoded levels, in both cases with
`numNulls = num_values` minus the count of levels equal to the max. -/
theorem c10_readDefinitionLevels (r : Reader) (numValues : Nat) (enc : String)
    (pathReps : List String) (levels : List Int) (r' : Reader)
    (h1 : isRequired pathReps = false)
    (h2 : readData r enc numValues (widthFromMaxInt (getMaxDefinitionLevel pathReps))
            = .ok (levels, r'))
    (h3 : levels.length = numValues) :
    readDefinitionLevels r numValues enc pathReps
      = .ok ((if levels.all (fun d => d == ((getMaxDefinitionLevel pathReps : Nat) : Int))
                then [] else levels,
              (numValues : Int)
                - (levels.countP (fun d => d == ((getMaxDefinitionLevel pathReps : Nat) : Int)) : Nat)),
             r')
    ∧ (levels.all (fun d => d == ((getMaxDefinitionLevel pathReps : Nat) : Int)) = true
        ↔ (numValues : Int)
            - (levels.countP (fun d => d == ((getMaxDefinitionLevel pathReps : Nat) : Int)) : Nat)
            = 0) := by
  have hw : widthFromMaxInt (getMaxDefinitionLevel pathReps) ≠ 0 := by
    simp [widthFromMaxInt, getMaxDefinitionLevel_ne_zero h1]
  have hcle : levels.countP (fun d => d == ((getMaxDefinitionLevel pathReps : Nat) : Int))
      ≤ levels.length := List.countP_le_length _
  have hiff : (levels.all (fun d => d == ((getMaxDefinitionLevel pathReps : Nat) : Int)) = true)
      ↔ ((numValues : Int)
          - (levels.countP (fun d => d == ((getMaxDefinitionLevel pathReps : Nat) : Int)) : Nat)
          = 0) := by
    constructor
    · intro hall
      have hc : levels.countP (fun d => d == ((getMaxDefinitionLevel pathReps : Nat) : Int))
          = levels.length :=
        List.countP_eq_length.mpr (List.all_eq_true.mp hall)
      rw [hc, h3]
      omega
    · intro h0
      have hc : levels.countP (fun d => d == ((getMaxDefinitionLevel pathReps : Nat) : Int))
          = levels.length := by omega
      exact List.all_eq_true.mpr (List.countP_eq_length.mp hc)
  refine ⟨?_, hiff⟩
  unfold readDefinitionLevels
  rw [if_pos (show (!isRequired pathReps) = true by rw [h1]; rfl), if_pos hw, h2]
  simp only [exceptBind_ok]
  by_cases hall : levels.all (fun d => d == ((getMaxDefinitionLevel pathReps : Nat) : Int)) = true
  · rw [if_pos (hiff.mp hall), if_pos hall]
  · rw [if_neg (fun hc => hall (hiff.mpr hc)), if_neg hall]

/-- C10 witness: an OPTIONAL column (maxDefinitionLevel 1) whose two levels
decode to [1,1]: no nulls, so the level array is dropped. -/
theorem c10_witness :
    isRequired ["OPTIONAL"] = false
    ∧ readDefinitionLevels ⟨[2, 0, 0, 0, 4, 1], 0⟩ 2 "RLE" ["OPTIONAL"]
        = .ok (([], 0), ⟨[2, 0, 0, 0, 4, 1], 6⟩) := by
  refine ⟨rfl, ?_⟩
  have hwval : widthFromMaxInt (getMaxDefinitionLevel ["OPTIONAL"]) = 1 := by
    show widthFromMaxInt 1 = 1
    unfold widthFromMaxInt
    rw [if_neg (by norm_num), Nat.log2]
    norm_num
  have h2 : readData ⟨[2, 0, 0, 0, 4, 1], 0⟩ "RLE" 2
      (widthFromMaxInt (getMaxDefinitionLevel ["OPTIONAL"]))
      = .ok ([1, 1], ⟨[2, 0, 0, 0, 4, 1], 6⟩) := by
    rw [hwval]
    rfl
  have h := (c10_readDefinitionLevels ⟨[2, 0, 0, 0, 4, 1], 0⟩ 2 "RLE" ["OPTIONAL"] [1, 1]
    ⟨[2, 0, 0, 0, 4, 1], 6⟩ rfl h2 rfl).1
  simpa using h

/-! ### C7: varint round trip

`toVarInt` runs on JS 32-bit bitwise arithmetic; for inputs below `2^31` it
produces the pure unsigned LEB128 encoding `natEncode`, and `readVarInt`
recovers the value.  At `2^31` the decoder's `(byte & 0x7f) << shift`
overflows into the int32 sign bit, which is the counterexample below. -/

/-- Pure unsigned LEB128 byte encoding of a natural number. -/
def natEncode (n : Nat) : List Nat :=
  if h : n < 128 then [n]
  else (n % 128 + 128) :: natEncode (n / 128)
termination_by n
decreasing_by exact Nat.div_lt_self (by omega) (by omega)

theorem int32OfUint32_eq_zero {u : Nat} (hu : u < 2 ^ 32) : int32OfUint32 u = 0 ↔ u = 0 := by
  unfold int32OfUint32
  split <;> omega

theorem jsAnd_neg128 {n : Nat} (hn : n < 2 ^ 32) :
    jsAnd (n : Int) (-128) = int32OfUint32 (n / 128 * 128) := by
  unfold jsAnd
  rw [toUint32_natCast hn, show toUint32 (-128) = 4294967168 from by decide]
  have hmain : n &&& 4294967168 = n / 128 * 128 := by
    have hform : n = 2 ^ 7 * (n / 128) + n % 128 := by omega
    have hq : n / 128 < 2 ^ 25 := by omega
    calc n &&& 4294967168
        = (2 ^ 7 * (n / 128) + n % 128) &&& (2 ^ 7 * 33554431) := by
          rw [← hform]
          norm_num
      _ = 2 ^ 7 * (n / 128 &&& 33554431) := land_mul_pow_two (by omega)
      _ = 2 ^ 7 * (n / 128) := by
          rw [show (33554431 : Nat) = 2 ^ 25 - 1 from by norm_num,
            Nat.and_pow_two_sub_one_eq_mod, Nat.mod_eq_of_lt hq]
      _ = n / 128 * 128 := by ring
  rw [hmain]

theorem jsAnd_neg128_eq_zero_iff {n : Nat} (hn : n < 2 ^ 32) :
    jsAnd (n : Int) (-128) = 0 ↔ n < 128 := by
  rw [jsAnd_neg128 hn, int32OfUint32_eq_zero (by omega)]
  omega

theorem jsAnd_127 {n : Nat} (hn : n < 2 ^ 32) : jsAnd (n : Int) 127 = ((n % 128 : Nat) : Int) := by
  unfold jsAnd
  rw [toUint32_natCast hn, show toUint32 127 = 127 from by decide,
    show (127 : Nat) = 2 ^ 7 - 1 from by norm_num, Nat.and_pow_two_sub_one_eq_mod]
  exact int32OfUint32_of_lt (by omega)

theorem jsOr_byte (n : Nat) : jsOr ((n % 128 : Nat) : Int) 128 = ((n % 128 + 128 : Nat) : Int) := by
  unfold jsOr
  rw [toUint32_natCast (by omega), show toUint32 128 = 128 from by decide]
  have hdisj : n % 128 ||| 128 = n % 128 + 128 := by
    have h := shiftLeft_or_of_lt (a := 1) (b := n % 128) (s := 7) (by omega)
    rw [Nat.lor_comm] at h
    rw [show (1 : Nat) <<< 7 = 128 from by decide] at h
    omega
  rw [hdisj]
  exact int32OfUint32_of_lt (by omega)

theorem jsShrU_7 {n : Nat} (hn : n < 2 ^ 32) : jsShrU (n : Int) 7 = ((n / 128 : Nat) : Int) := by
  unfold jsShrU
  rw [toUint32_natCast hn, show toUint32 7 % 32 = 7 from by decide, Nat.shiftRight_eq_div_pow]

theorem jsShl_zero_left (k : Int) : jsShl 0 k = 0 := by
  unfold jsShl
  rw [show toUint32 0 = 0 from by decide, Nat.zero_shiftLeft]
  rfl

theorem jsShl_nat {b s : Nat} (hb : b < 2 ^ 32) (hs32 : s < 32) (hsm : b * 2 ^ s < 2 ^ 31) :
    jsShl (b : Int) ((s : Nat) : Int) = ((b * 2 ^ s : Nat) : Int) := by
  unfold jsShl
  rw [toUint32_natCast hb, toUint32_natCast (show s < 2 ^ 32 by omega),
    Nat.mod_eq_of_lt hs32, Nat.shiftLeft_eq, Nat.mod_eq_of_lt (by omega)]
  exact int32OfUint32_of_lt hsm

theorem jsOr_nat {a b : Nat} (ha : a < 2 ^ 32) (hb : b < 2 ^ 32) (hab : (a ||| b) < 2 ^ 31) :
    jsOr (a : Int) (b : Int) = ((a ||| b : Nat) : Int) := by
  unfold jsOr
  rw [toUint32_natCast ha, toUint32_natCast hb]
  exact int32OfUint32_of_lt hab

theorem jsAnd_128_of_lt {b : Nat} (hb : b < 128) : jsAnd (b : Int) 128 = 0 := by
  unfold jsAnd
  rw [toUint32_natCast (by omega), show toUint32 128 = 128 from by decide,
    show (128 : Nat) = 2 ^ 7 from by norm_num, land_two_pow_eq_zero (by omega)]
  rfl

theorem jsAnd_128_of_ge {b : Nat} (h1 : 128 ≤ b) (h2 : b < 256) : jsAnd (b : Int) 128 = 128 := by
  unfold jsAnd
  rw [toUint32_natCast (by omega), show toUint32 128 = 128 from by decide]
  have hform : b &&& 128 = 128 := by
    have h := land_two_pow_add (r := b - 128) (k := 7) (by omega)
    have hb' : 2 ^ 7 + (b - 128) = b := by omega
    rw [hb'] at h
    simpa using h
  rw [hform]
  exact int32OfUint32_of_lt (by omega)

theorem toUint8_natCast {b : Nat} (h : b < 256) : toUint8 (b : Int) = b := by
  unfold toUint8
  omega

theorem natEncode_bytes_lt : ∀ n : Nat, ∀ b ∈ natEncode n, b < 256 := by
  intro n
  induction n using Nat.strong_induction_on with
  | _ n ih =>
    rw [natEncode]
    split
    · rename_i h
      intro b hb
      simp only [List.mem_singleton] at hb
      omega
    · rename_i h
      intro b hb
      rcases List.mem_cons.mp hb with hb | hb
      · omega
      · exact ih (n / 128) (Nat.div_lt_self (by omega) (by omega)) b hb

theorem natEncode_length : ∀ (k n : Nat), n < 2 ^ (7 * (k + 1)) → (natEncode n).length ≤ k + 1 := by
  intro k
  induction k with
  | zero =>
    intro n hn
    rw [natEncode, dif_pos (show n < 128 by norm_num at hn; omega)]
    simp
  | succ k ih =>
    intro n hn
    rw [natEncode]
    split
    · simp
    · rename_i h
      have hxp : (2 : Nat) ^ (7 * (k + 1 + 1)) = 2 ^ (7 * (k + 1)) * 128 := by
        rw [show 7 * (k + 1 + 1) = 7 * (k + 1) + 7 from by ring, pow_add]
        norm_num
      have hdiv : n / 128 < 2 ^ (7 * (k + 1)) :=
        (Nat.div_lt_iff_lt_mul (by norm_num)).mpr (by omega)
      simpa using ih (n / 128) hdiv

theorem toVarIntAux_eq_natEncode :
    ∀ (k n fuel : Nat), n < 2 ^ (7 * (k + 1)) → n < 2 ^ 32 → k + 1 ≤ fuel →
      toVarIntAux fuel (n : Int) = (natEncode n).map (fun b : Nat => (b : Int)) := by
  intro k
  induction k with
  | zero =>
    intro n fuel hn h32 hf
    obtain ⟨f, rfl⟩ : ∃ f, fuel = f + 1 := ⟨fuel - 1, by omega⟩
    have hlt : n < 128 := by norm_num at hn; omega
    rw [toVarIntAux, if_pos ((jsAnd_neg128_eq_zero_iff h32).mpr hlt), natEncode, dif_pos hlt]
    simp
  | succ k ih =>
    intro n fuel hn h32 hf
    obtain ⟨f, rfl⟩ : ∃ f, fuel = f + 1 := ⟨fuel - 1, by omega⟩
    by_cases hlt : n < 128
    · rw [toVarIntAux, if_pos ((jsAnd_neg128_eq_zero_iff h32).mpr hlt), natEncode, dif_pos hlt]
      simp
    · rw [toVarIntAux, if_neg (fun hc => hlt ((jsAnd_neg128_eq_zero_iff h32).mp hc)),
        jsAnd_127 h32, jsOr_byte, jsShrU_7 h32, natEncode, dif_neg hlt]
      simp only [List.map_cons]
      congr 1
      have hxp : (2 : Nat) ^ (7 * (k + 1 + 1)) = 2 ^ (7 * (k + 1)) * 128 := by
        rw [show 7 * (k + 1 + 1) = 7 * (k + 1) + 7 from by ring, pow_add]
        norm_num
      have hdiv : n / 128 < 2 ^ (7 * (k + 1)) :=
        (Nat.div_lt_iff_lt_mul (by norm_num)).mpr (by omega)
      exact ih (n / 128) f hdiv (by omega) (by omega)

theorem decode_natEncode :
    ∀ (n : Nat) (d rest : List Nat) (index r s fuel : Nat),
      d.drop index = natEncode n ++ rest →
      r < 2 ^ s →
      r + n * 2 ^ s < 2 ^ 31 →
      (natEncode n).length ≤ fuel →
      readVarIntAux d fuel index ((r : Nat) : Int) ((s : Nat) : Int)
        = .ok (((r + n * 2 ^ s : Nat) : Int), index + (natEncode n).length) := by
  intro n
  induction n using Nat.strong_induction_on with
  | _ n ih =>
    intro d rest index r s fuel hdrop hr hbound hf
    by_cases hlt : n < 128
    · rw [natEncode, dif_pos hlt] at hdrop hf ⊢
      obtain ⟨f, rfl⟩ : ∃ f, fuel = f + 1 := ⟨fuel - 1, by simp at hf; omega⟩
      rw [readVarIntAux, getUint8_of_drop d index n rest (by simpa using hdrop)]
      simp only [exceptBind_ok]
      rw [Nat.mod_eq_of_lt (show n < 256 by omega),
        jsAnd_127 (show n < 2 ^ 32 by omega), Nat.mod_eq_of_lt hlt,
        jsAnd_128_of_lt hlt, if_pos rfl]
      have hres : jsOr ((r : Nat) : Int) (jsShl ((n : Nat) : Int) ((s : Nat) : Int))
          = ((r + n * 2 ^ s : Nat) : Int) := by
        by_cases hz : n = 0
        · subst hz
          rw [Nat.cast_zero, jsShl_zero_left,
            show (0 : Int) = ((0 : Nat) : Int) from rfl,
            jsOr_nat (by omega) (by norm_num) (by rw [Nat.or_zero]; omega), Nat.or_zero]
          norm_num
        · have hp : (2 : Nat) ^ s ≤ n * 2 ^ s := Nat.le_mul_of_pos_left _ (by omega)
          have hs31 : s < 32 := by
            by_contra hs
            push_neg at hs
            have h1 : (2 : Nat) ^ 32 ≤ 2 ^ s := Nat.pow_le_pow_right (by norm_num) hs
            have h2 : (2 : Nat) ^ 31 < 2 ^ 32 := by norm_num
            omega
          have hor : r ||| n * 2 ^ s = r + n * 2 ^ s := by
            have h := shiftLeft_or_of_lt (a := n) (b := r) (s := s) hr
            rw [Nat.lor_comm, Nat.shiftLeft_eq] at h
            rw [h]
            ring
          rw [jsShl_nat (by omega) hs31 (by omega),
            jsOr_nat (by omega) (by omega) (by rw [hor]; omega), hor]
      rw [hres]
      simp
    · rw [natEncode, dif_neg hlt] at hdrop hf ⊢
      obtain ⟨f, rfl⟩ : ∃ f, fuel = f + 1 := ⟨fuel - 1, by simp at hf; omega⟩
      simp only [List.cons_append] at hdrop
      have hbyte : n % 128 + 128 < 256 := by omega
      rw [readVarIntAux,
        getUint8_of_drop d index (n % 128 + 128) (natEncode (n / 128) ++ rest) hdrop]
      simp only [exceptBind_ok]
      rw [Nat.mod_eq_of_lt hbyte,
        jsAnd_127 (by omega), show (n % 128 + 128) % 128 = n % 128 from by omega,
        jsAnd_128_of_ge (by omega) hbyte, if_neg (by norm_num)]
      have hp : (2 : Nat) ^ s ≤ n * 2 ^ s := Nat.le_mul_of_pos_left _ (by omega)
      have hs31 : s < 32 := by
        by_contra hs
        push_neg at hs
        have h1 : (2 : Nat) ^ 32 ≤ 2 ^ s := Nat.pow_le_pow_right (by norm_num) hs
        have h2 : (2 : Nat) ^ 31 < 2 ^ 32 := by norm_num
        omega
      have hm2 : (n % 128) * 2 ^ s ≤ n * 2 ^ s := Nat.mul_le_mul_right _ (Nat.mod_le _ _)
      have hres : jsOr ((r : Nat) : Int) (jsShl (((n % 128 : Nat)) : Int) ((s : Nat) : Int))
          = ((r + (n % 128) * 2 ^ s : Nat) : Int) := by
        by_cases hz : n % 128 = 0
        · rw [hz, Nat.cast_zero, jsShl_zero_left,
            show (0 : Int) = ((0 : Nat) : Int) from rfl,
            jsOr_nat (by omega) (by norm_num) (by rw [Nat.or_zero]; omega), Nat.or_zero]
          norm_num
        · have hor : r ||| (n % 128) * 2 ^ s = r + (n % 128) * 2 ^ s := by
            have h := shiftLeft_or_of_lt (a := n % 128) (b := r) (s := s) hr
            rw [Nat.lor_comm, Nat.shiftLeft_eq] at h
            rw [h]
            ring
          rw [jsShl_nat (by omega) hs31 (by omega),
            jsOr_nat (by omega) (by omega) (by rw [hor]; omega), hor]
      rw [hres, show ((s : Nat) : Int) + 7 = (((s + 7 : Nat)) : Int) from by push_cast; ring]
      have hdrop' : d.drop (index + 1) = natEncode (n / 128) ++ rest := by
        rw [← List.tail_drop, hdrop]
        rfl
      have hr' : r + (n % 128) * 2 ^ s < 2 ^ (s + 7) := by
        have h1 : (n % 128) * 2 ^ s ≤ 127 * 2 ^ s := Nat.mul_le_mul_right _ (by omega)
        have h2 : (2 : Nat) ^ (s + 7) = 2 ^ s * 128 := by
          rw [pow_add]
          norm_num
        omega
      have hsum : (n / 128) * 2 ^ (s + 7) + (n % 128) * 2 ^ s = n * 2 ^ s := by
        have h2 : (2 : Nat) ^ (s + 7) = 2 ^ s * 128 := by
          rw [pow_add]
          norm_num
        have h3 : n / 128 * 128 + n % 128 = n := by omega
        rw [h2]
        calc n / 128 * ((2 : Nat) ^ s * 128) + n % 128 * 2 ^ s
            = (n / 128 * 128 + n % 128) * 2 ^ s := by ring
          _ = n * 2 ^ s := by rw [h3]
      have hrec := ih (n / 128) (Nat.div_lt_self (by omega) (by omega)) d rest (index + 1)
        (r + (n % 128) * 2 ^ s) (s + 7) f hdrop' hr'
        (by omega) (by simp only [List.length_cons] at hf; omega)
      rw [hrec,
        show r + n % 128 * 2 ^ s + n / 128 * 2 ^ (s + 7) = r + n * 2 ^ s from by omega,
        show index + 1 + (natEncode (n / 128)).length
            = index + ((n % 128 + 128) :: natEncode (n / 128)).length from by
          simp only [List.length_cons]
          omega]

/-- C7 amended: the varint round trip `readVarInt(toVarInt(n)) = n` holds for
n in [0, 2^31), with at most five bytes emitted.  `toVarInt` runs on 32-bit
coerced arithmetic (`n >>>= 7`), so nothing above 32 bits can be encoded,
and from 2^31 the decoder's `(byte & 0x7f) << shift` overflows into the int32
sign bit (see the counterexample); the claimed range [0, 2^64) therefore
shrinks to [0, 2^31). -/
theorem c7_varint_roundtrip (n : Nat) (h : n < 2 ^ 31) :
    readVarInt ((toVarInt (n : Int)).map toUint8) 0
      = .ok ((n : Int), ((toVarInt (n : Int)).map toUint8).length)
    ∧ (toVarInt (n : Int)).length ≤ 5 := by
  have h35 : n < 2 ^ (7 * (4 + 1)) := by norm_num at h ⊢; omega
  have h32 : n < 2 ^ 32 := by norm_num at h ⊢; omega
  have henc : toVarInt (n : Int) = (natEncode n).map (fun b : Nat => (b : Int)) :=
    toVarIntAux_eq_natEncode 4 n 6 h35 h32 (by omega)
  have hbytes : (toVarInt (n : Int)).map toUint8 = natEncode n := by
    rw [henc, List.map_map]
    have hcg : ∀ b ∈ natEncode n, (toUint8 ∘ fun b : Nat => (b : Int)) b = id b := by
      intro b hb
      simp [Function.comp, toUint8_natCast (natEncode_bytes_lt n b hb)]
    rw [List.map_congr_left hcg, List.map_id]
  constructor
  · rw [hbytes]
    unfold readVarInt
    have hdec := decode_natEncode n (natEncode n) [] 0 0 0 ((natEncode n).length + 1 - 0)
      (by simp) (by norm_num) (by simpa using h) (by omega)
    simpa using hdec
  · rw [henc, List.length_map]
    exact natEncode_length 4 n h35

/-- C7 counterexample: at n = 2^31 the round trip fails.  `toVarInt(2^31)`
emits [0x80,0x80,0x80,0x80,0x08]; decoding shifts the final group by 28 bits,
`8 << 28` overflows to the int32 sign bit, and `readVarInt` returns −2^31
instead of 2^31. -/
theorem c7_counterexample :
    readVarInt ((toVarInt ((2 : Int) ^ 31)).map toUint8) 0 = .ok (-(2 ^ 31), 5)
    ∧ (-(2 : Int) ^ 31) ≠ (2 : Int) ^ 31 :=
  ⟨rfl, by decide⟩

/-- C7 witness: the amended round trip at n = 300 (two bytes, 0xAC 0x02). -/
theorem c7_witness :
    (300 : Nat) < 2 ^ 31
    ∧ (readVarInt ((toVarInt ((300 : Nat) : Int)).map toUint8) 0
        = .ok (((300 : Nat) : Int), ((toVarInt ((300 : Nat) : Int)).map toUint8).length)
      ∧ (toVarInt ((300 : Nat) : Int)).length ≤ 5) :=
  ⟨by decide, c7_varint_roundtrip 300 (by decide)⟩

end Hyparquet
